/-
Verification development for the Financial-Document-Q-A-with-RAG notebook
(financial_analyst.ipynb).

The notebook is a four-stage pipeline: Extractor (PyMuPDF page loop, cell
c37a030c), Chunker (LangChain RecursiveCharacterTextSplitter, cell 5c17b777,
configured in cell 045594de with chunk_size=1000, chunk_overlap=200,
length_function=len), Indexer (cell 5dcf202e), and Query Engine
(cell e2550bf8).

The chunker's behaviour is decided by the library function
RecursiveCharacterTextSplitter.split_text, which the notebook calls with its
default separators ["\n\n", "\n", " ", ""], keep_separator=True and
strip_whitespace=True; that algorithm is embedded below over List Char
(length_function=len is the character count, so Nat lengths are exact).
Python strings are modelled as List Char throughout.
-/

import Mathlib

namespace RagPipeline

/-! ## Python string primitives -/

/-- Python's whitespace set for str.strip() / str.split(), ASCII part:
space, tab, newline, carriage return, vertical tab, form feed. -/
def isPyWs (c : Char) : Bool :=
  c = ' ' || c = '\t' || c = '\n' || c = '\r' || c = '\x0b' || c = '\x0c'

/-- Python str.strip(): remove leading and trailing whitespace. -/
def stripList (l : List Char) : List Char :=
  ((l.dropWhile isPyWs).reverse.dropWhile isPyWs).reverse

/-- Python sep.join(docs). -/
def joinWithSep (sep : List Char) : List (List Char) → List Char
  | [] => []
  | [x] => x
  | x :: y :: rest => x ++ sep ++ joinWithSep sep (y :: rest)

/-- Whether the pattern `sep` occurs as a contiguous substring of the text
(Python re.search of the re.escape'd separator). -/
def occursIn (sep : List Char) : List Char → Bool
  | [] => sep.isEmpty
  | c :: cs => sep.isPrefixOf (c :: cs) || occursIn sep cs

/-- Number of positions at which the pattern occurs in the text
(all start positions counted, as for a nonempty search pattern). -/
def countOccur (pat : List Char) : List Char → Nat
  | [] => 0
  | c :: cs => (if pat.isPrefixOf (c :: cs) then 1 else 0) + countOccur pat cs

/-- Split on leftmost non-overlapping occurrences of a nonempty separator
(Python re.split on the escaped literal, pieces only).  Accumulator-based and
tail-recursive so that the kernel can evaluate it on long texts; fuel-based so
that it is structurally recursive (`splitOnList` supplies sufficient fuel).
`accP` holds the current piece reversed, `accs` the finished pieces reversed. -/
def splitOnAux (sep : List Char) : Nat → List Char → List Char → List (List Char) →
    List (List Char)
  | 0, l, accP, accs => accs.reverse ++ [accP.reverse ++ l]
  | _ + 1, [], accP, accs => accs.reverse ++ [accP.reverse]
  | fuel + 1, c :: cs, accP, accs =>
      if sep.isPrefixOf (c :: cs) then
        splitOnAux sep fuel ((c :: cs).drop sep.length) [] (accP.reverse :: accs)
      else splitOnAux sep fuel cs (c :: accP) accs

/-- Direct-style mirror of `splitOnAux` (same pieces, no accumulators),
used for the proofs; `splitOnAux_eq_spec` below relates the two. -/
def splitOnSpec (sep : List Char) : Nat → List Char → List (List Char)
  | 0, l => [l]
  | _ + 1, [] => [[]]
  | fuel + 1, c :: cs =>
      if sep.isPrefixOf (c :: cs) then
        [] :: splitOnSpec sep fuel ((c :: cs).drop sep.length)
      else
        match splitOnSpec sep fuel cs with
        | [] => [[c]]
        | p :: ps => (c :: p) :: ps

def splitOnList (sep l : List Char) : List (List Char) :=
  splitOnAux sep (l.lengthTR + 1) l [] []

/-! ## The LangChain text splitter (langchain.text_splitter), as configured
by the notebook: RecursiveCharacterTextSplitter(chunk_size, chunk_overlap,
length_function=len) with the default separators and keep_separator=True. -/

/-- _split_text_with_regex(text, re.escape(separator), keep_separator=True):
for an empty separator the text is split into single characters
(re.split pieces of list(text)); otherwise the splinters keep the separator
attached to the front of the following piece, and empty pieces are dropped. -/
def splitTextWithRegex (sep : List Char) (text : List Char) : List (List Char) :=
  if sep.isEmpty then text.map (fun c => [c])
  else
    match splitOnList sep text with
    | [] => []
    | p :: ps => (p :: ps.map (fun q => sep ++ q)).filter (fun s => !s.isEmpty)

/-- TextSplitter._join_docs(docs, separator): join, strip whitespace
(strip_whitespace defaults to True), return None when empty. -/
def joinDocs (sep : List Char) (docs : List (List Char)) : Option (List Char) :=
  if (stripList (joinWithSep sep docs)).isEmpty then none
  else some (stripList (joinWithSep sep docs))

/-- The inner while-loop of TextSplitter._merge_splits: pop leading pieces of
current_doc while the running total exceeds the overlap, or appending the next
piece would exceed the chunk size.  (When current_doc is empty the loop
condition is false in every reachable state, because total is then 0.)
The Nat subtraction never truncates in reachable states, where total is the
sum of the piece lengths plus the separators between them. -/
def popLoop (cs co : Nat) (sep : List Char) (dlen : Nat) :
    List (List Char) → Nat → List (List Char) × Nat
  | [], total => ([], total)
  | h :: t, total =>
      if total > co ∨ (total + dlen + sep.length > cs ∧ total > 0) then
        popLoop cs co sep dlen t (total - (h.length + if t.isEmpty then 0 else sep.length))
      else (h :: t, total)

/-- TextSplitter._merge_splits, main loop over the splits, with state
(docs, current_doc, total) threaded explicitly. -/
def mergeGo (cs co : Nat) (sep : List Char) (docs currentDoc : List (List Char))
    (total : Nat) : List (List Char) → List (List Char)
  | [] => docs ++ (joinDocs sep currentDoc).toList
  | d :: rest =>
      if total + d.length + (if currentDoc.isEmpty then 0 else sep.length) > cs then
        match currentDoc with
        | [] => mergeGo cs co sep docs [d] (total + d.length) rest
        | h :: t =>
            mergeGo cs co sep (docs ++ (joinDocs sep (h :: t)).toList)
              ((popLoop cs co sep d.length (h :: t) total).1 ++ [d])
              ((popLoop cs co sep d.length (h :: t) total).2 + d.length +
                (if (popLoop cs co sep d.length (h :: t) total).1.isEmpty then 0
                 else sep.length))
              rest
      else
        mergeGo cs co sep docs (currentDoc ++ [d])
          (total + d.length + (if currentDoc.isEmpty then 0 else sep.length)) rest

/-- TextSplitter._merge_splits(splits, separator). -/
def mergeSplits (cs co : Nat) (sep : List Char) (splits : List (List Char)) :
    List (List Char) :=
  mergeGo cs co sep [] [] 0 splits

/-- Sum of the piece lengths — the value `total` tracks in `_merge_splits`
when the separator is empty (used to state the loop invariants). -/
def sumLen (l : List (List Char)) : Nat := (l.map List.length).sum

/-- The for-loop over splits inside RecursiveCharacterTextSplitter._split_text:
pieces shorter than the chunk size accumulate in _good_splits; an over-long
piece flushes the accumulated good splits through _merge_splits and is handed
to `handleBad` (either appended as-is when no finer separators remain, or
recursively re-split).  With keep_separator=True the merge separator is "". -/
def processSplits (cs co : Nat) (handleBad : List Char → List (List Char)) :
    List (List Char) → List (List Char) → List (List Char)
  | [], good => if good.isEmpty then [] else mergeSplits cs co [] good
  | s :: rest, good =>
      if s.length < cs then processSplits cs co handleBad rest (good ++ [s])
      else
        (if good.isEmpty then [] else mergeSplits cs co [] good)
          ++ handleBad s ++ processSplits cs co handleBad rest []

/-- RecursiveCharacterTextSplitter._split_text(text, separators).  The Python
code first scans the separator list for the first separator that is "" or
occurs in the text (falling back to the last separator, with no finer
separators, when none matches); here that scan is fused into the structural
recursion on the separator list: a head separator that is nonempty, does not
occur, and is not last is simply skipped, which yields the same chosen
separator and the same remaining-separator list as the Python loop. -/
def splitTextRec (cs co : Nat) : List (List Char) → List Char → List (List Char)
  | [], _ => []
  | s :: rest, text =>
      if s.isEmpty then
        processSplits cs co (fun x => [x]) (splitTextWithRegex [] text) []
      else if occursIn s text then
        match rest with
        | [] => processSplits cs co (fun x => [x]) (splitTextWithRegex s text) []
        | r :: rs =>
            processSplits cs co (fun x => splitTextRec cs co (r :: rs) x)
              (splitTextWithRegex s text) []
      else
        match rest with
        | [] => processSplits cs co (fun x => [x]) (splitTextWithRegex s text) []
        | r :: rs => splitTextRec cs co (r :: rs) text

/-- The default separator list of RecursiveCharacterTextSplitter:
["\n\n", "\n", " ", ""]. -/
def defaultSeparators : List (List Char) := [['\n', '\n'], ['\n'], [' '], []]

/-- RecursiveCharacterTextSplitter(chunk_size=cs, chunk_overlap=co,
length_function=len).split_text(text). -/
def splitText (cs co : Nat) (text : List Char) : List (List Char) :=
  splitTextRec cs co defaultSeparators text

/-- Cell 045594de: chunk_size = 1000. -/
def chunk_size : Nat := 1000

/-- Cell 045594de: chunk_overlap = 200. -/
def chunk_overlap : Nat := 200

/-- Cell 5c17b777: chunks = text_splitter.split_text(full_text) with the
configured parameters. -/
def chunkDocument (text : List Char) : List (List Char) :=
  splitText chunk_size chunk_overlap text

/-! ## The Extractor (cell c37a030c) -/

def digitChar : Nat → Char
  | 0 => '0' | 1 => '1' | 2 => '2' | 3 => '3' | 4 => '4'
  | 5 => '5' | 6 => '6' | 7 => '7' | 8 => '8' | _ => '9'

/-- Decimal rendering of a natural number, as Python str(n) produces inside
the page-marker f-string.  Fuel-based (the fuel only needs to exceed n). -/
def natToDecAux : Nat → Nat → List Char
  | 0, _ => []
  | fuel + 1, n =>
      if n < 10 then [digitChar n]
      else natToDecAux fuel (n / 10) ++ [digitChar (n % 10)]

def natToDec (n : Nat) : List Char := natToDecAux (n + 1) n

/-- Decimal value of a digit string (used to prove `natToDec` injective). -/
def decVal (l : List Char) : Nat :=
  l.foldl (fun a c => a * 10 + (c.toNat - 48)) 0

/-- The page-marker text "--- Page N ---" (the marker string the spec names,
without the surrounding newlines). -/
def markerCore (n : Nat) : List Char :=
  "--- Page ".data ++ natToDec n ++ " ---".data

/-- The full marker line the extractor appends before each page:
f"\n--- Page {page_num + 1} ---\n". -/
def markerLine (n : Nat) : List Char := '\n' :: (markerCore n ++ ['\n'])

/-- The extractor's page loop: starting at 0-based page index `i`, append for
each page the marker line (numbered i+1) followed by that page's text, in
physical page order (full_text += f"\n--- Page {page_num + 1} ---\n";
full_text += page_text). -/
def extractFrom (i : Nat) : List (List Char) → List Char
  | [] => []
  | p :: ps => markerLine (i + 1) ++ p ++ extractFrom (i + 1) ps

/-- The string the extractor builds from the document's pages. -/
def extractText (pages : List (List Char)) : List Char := extractFrom 0 pages

/-! ## The Query Engine's page attribution (cell e2550bf8) -/

/-- Python str.splitlines boundaries (the line-break characters). -/
def isLineBreak (c : Char) : Bool :=
  c = '\n' || c = '\r' || c = '\x0b' || c = '\x0c' || c = '\x1c' || c = '\x1d' ||
  c = '\x1e' || c = '\x85' || c = '\u2028' || c = '\u2029'

/-- Python str.splitlines main loop; `acc` is the current line reversed.
A "\r\n" pair counts as a single boundary, and no empty trailing line is
produced when the string ends with a line break.  Fuel-based so that it is
structurally recursive (`splitlinesPy` supplies sufficient fuel). -/
def splitlinesAux : Nat → List Char → List Char → List (List Char)
  | 0, l, acc => [acc.reverse ++ l]
  | _ + 1, [], acc => [acc.reverse]
  | fuel + 1, c :: rest, acc =>
      if c = '\r' then
        match rest with
        | '\n' :: rest2 =>
            match rest2 with
            | [] => [acc.reverse]
            | _ :: _ => acc.reverse :: splitlinesAux fuel rest2 []
        | [] => [acc.reverse]
        | _ :: _ => acc.reverse :: splitlinesAux fuel rest []
      else if isLineBreak c then
        match rest with
        | [] => [acc.reverse]
        | _ :: _ => acc.reverse :: splitlinesAux fuel rest []
      else splitlinesAux fuel rest (c :: acc)

/-- Python str.splitlines(). -/
def splitlinesPy : List Char → List (List Char)
  | [] => []
  | c :: rest => splitlinesAux (rest.length + 1) (c :: rest) []

/-- Python str.split() with no argument: split on runs of whitespace,
producing no empty tokens. -/
def splitWSAux : List Char → List Char → List (List Char)
  | [], acc => if acc.isEmpty then [] else [acc.reverse]
  | c :: rest, acc =>
      if isPyWs c then
        if acc.isEmpty then splitWSAux rest []
        else acc.reverse :: splitWSAux rest []
      else splitWSAux rest (c :: acc)

def splitWS (l : List Char) : List (List Char) := splitWSAux l []

/-- The fallback attribution text from the except IndexError branch. -/
def notFoundMsg : List Char := "(Page number not found)".data

/-- The source-attribution computation of cell e2550bf8:
  page_info = f"(from Page {source.page_content.splitlines()[1].split()[-1]})"
with the IndexError (missing second line, or no token on it) caught and
replaced by "(Page number not found)". -/
def pageInfo (chunkContent : List Char) : List Char :=
  match splitlinesPy chunkContent with
  | _ :: line :: _ =>
      match (splitWS line).getLast? with
      | none => notFoundMsg
      | some tok => "(from Page ".data ++ (tok ++ ")".data)
  | _ => notFoundMsg

/-! ## Stage models: inputs, reports and writes

Each notebook stage is one try/except block: it reads its input file, runs its
transformation, then writes its output; a FileNotFoundError is caught by a
dedicated branch printing a message naming the missing input path (in the
extractor, chunker and indexer cells), and any other exception by a generic
branch.  The query cell (e2550bf8) has only the generic `except Exception`
branch.  Reads are modelled by `FileRead` (absent path / unreadable content /
ok), failures of the loaded models by а boolean, and the on-disk effects by
the list of (path, artifact) writes the stage performs. -/

inductive FileRead (α : Type) where
  | absent : FileRead α
  | corrupt : FileRead α
  | ok : α → FileRead α

inductive Report where
  | success : List Char → Report
  | missingInput : List Char → Report
  | unexpected : Report
deriving DecidableEq

inductive Artifact where
  | text : List Char → Artifact
  | chunkList : List (List Char) → Artifact
  | index : List (List Int × List Char) → Artifact

structure StageResult where
  report : Report
  writes : List (List Char × Artifact)

/-- Cell 9c5e297a: pdf_path = "NASDAQ_AAPL_2024.pdf". -/
def pdfPath : List Char := "NASDAQ_AAPL_2024.pdf".data

/-- Cells 9c5e297a / 045594de: the extracted-text file. -/
def outputTextFile : List Char := "extracted_report_text.txt".data

/-- Cells 045594de / b4f48359: the pickled chunk list. -/
def outputChunksFile : List Char := "report_chunks.pkl".data

/-- Cells b4f48359 / c7fe4c19: faiss_index_path = "faiss_index". -/
def faissIndexPath : List Char := "faiss_index".data

def extractorSuccessMsg (n : Nat) : List Char :=
  " Success! Extracted ".data ++ (natToDec n ++ " pages.".data)

/-- Cell c37a030c: fitz.open raises FileNotFoundError when the PDF is absent
(dedicated except branch naming pdf_path, nothing written); any other parse
failure hits the generic branch before the output file is opened; on success
the full text is built page by page and only then written. -/
def extractorRun (pdf : FileRead (List (List Char))) : StageResult :=
  match pdf with
  | .absent => ⟨.missingInput pdfPath, []⟩
  | .corrupt => ⟨.unexpected, []⟩
  | .ok pages =>
      ⟨.success (extractorSuccessMsg pages.length),
       [(outputTextFile, .text (extractText pages))]⟩

def chunkerSuccessMsg (n : Nat) : List Char :=
  "\n Success! The document was split into ".data ++ (natToDec n ++ " chunks.".data)

/-- Cell 5c17b777: open(input_text_file) raises FileNotFoundError when the
extracted text is absent (dedicated except branch naming input_text_file);
on success the chunks are computed and then pickled to report_chunks.pkl. -/
def chunkerRun (file : FileRead (List Char)) : StageResult :=
  match file with
  | .absent => ⟨.missingInput outputTextFile, []⟩
  | .corrupt => ⟨.unexpected, []⟩
  | .ok text =>
      let chunks := splitText chunk_size chunk_overlap text
      ⟨.success (chunkerSuccessMsg chunks.length),
       [(outputChunksFile, .chunkList chunks)]⟩

def indexerSuccessMsg : List Char :=
  "\n Success! Vector store created and saved to 'faiss_index'.".data

/-- Cell 5dcf202e: open(input_chunks_file) raises FileNotFoundError when the
chunk file is absent (dedicated except branch naming input_chunks_file);
embedding-model load or index-build failure hits the generic branch; on
success FAISS.from_texts pairs each chunk with its embedding and save_local
writes the index directory afterwards. -/
def indexerRun (embed : List Char → List Int) (modelOk : Bool)
    (file : FileRead (List (List Char))) : StageResult :=
  match file with
  | .absent => ⟨.missingInput outputChunksFile, []⟩
  | .corrupt => ⟨.unexpected, []⟩
  | .ok chunks =>
      if modelOk then
        ⟨.success indexerSuccessMsg,
         [(faissIndexPath, .index (chunks.map (fun c => (embed c, c))))]⟩
      else ⟨.unexpected, []⟩

/-- Cell e2550bf8: the query cell's try block has no FileNotFoundError branch;
every failure (a missing or unreadable faiss_index directory, a model-load
failure) is caught by the single generic `except Exception` branch.  The cell
writes nothing to disk; on success it prints the answer. -/
def queryEngineRun (modelOk : Bool)
    (file : FileRead (List (List Int × List Char))) (answer : List Char) :
    StageResult :=
  match file with
  | .absent => ⟨.unexpected, []⟩
  | .corrupt => ⟨.unexpected, []⟩
  | .ok _ => if modelOk then ⟨.success answer, []⟩ else ⟨.unexpected, []⟩

def isSuccess : Report → Bool
  | .success _ => true
  | _ => false

/-! ## Spec-side notions used to state the claims -/

/-- Spec-side (claim C1): the length of the longest suffix of `prev` that is
a prefix of `next` — the overlap shared by two consecutive chunks. -/
def maxOverlap (prev next : List Char) : Nat :=
  (List.range (min prev.length next.length + 1)).foldl
    (fun best k => if prev.drop (prev.length - k) = next.take k then k else best) 0

/-- Spec-side (claim C1): concatenate the chunks with each chunk's
overlapping prefix (the part it shares with the text produced so far)
removed. -/
def reconstructAux : List Char → List (List Char) → List Char
  | acc, [] => acc
  | acc, c :: cs => reconstructAux (acc ++ c.drop (maxOverlap acc c)) cs

def reconstructChunks (chunks : List (List Char)) : List Char :=
  reconstructAux [] chunks

/-- The 2,400-character input of the spec's chunking scenario (claim C7):
240 repetitions of a ten-character word-plus-space group. -/
def c7Input : List Char := (List.replicate 240 "abcdefghi ".data).flatten

/-! ## Lemmas about the string primitives -/

theorem joinWithSep_two_cons (sep x y : List Char) (t : List (List Char)) :
    joinWithSep sep (x :: y :: t) = x ++ sep ++ joinWithSep sep (y :: t) := rfl

theorem joinWithSep_cons_of_ne_nil (sep x : List Char) {rest : List (List Char)}
    (h : rest ≠ []) :
    joinWithSep sep (x :: rest) = x ++ sep ++ joinWithSep sep rest := by
  cases rest with
  | nil => exact absurd rfl h
  | cons y t => rfl

theorem joinWithSep_cons_head (sep : List Char) (c : Char) (p : List Char)
    (ps : List (List Char)) :
    joinWithSep sep ((c :: p) :: ps) = c :: joinWithSep sep (p :: ps) := by
  cases ps <;> simp [joinWithSep]

theorem joinWithSep_nil_eq_flatten : ∀ l : List (List Char), joinWithSep [] l = l.flatten
  | [] => rfl
  | [x] => by simp [joinWithSep]
  | x :: y :: t => by
      rw [joinWithSep_two_cons, joinWithSep_nil_eq_flatten (y :: t)]; simp

theorem flatten_length_eq_sumLen (l : List (List Char)) :
    l.flatten.length = sumLen l := by
  simp [sumLen]

theorem sumLen_append (a b : List (List Char)) :
    sumLen (a ++ b) = sumLen a + sumLen b := by
  simp [sumLen]

theorem flatten_infix_of_infix {run l : List (List Char)} (h : run <:+: l) :
    run.flatten <:+: l.flatten := by
  rcases h with ⟨a, b, rfl⟩
  exact ⟨a.flatten, b.flatten, by simp⟩

theorem singleton_infix_of_mem {s : List Char} {l : List (List Char)} (h : s ∈ l) :
    [s] <:+: l := by
  rcases List.append_of_mem h with ⟨a, b, rfl⟩
  exact ⟨a, b, by simp⟩

/-! ### stripList -/

theorem stripList_prefix_dropWhile (l : List Char) :
    stripList l <+: l.dropWhile isPyWs := by
  have h := List.dropWhile_suffix (l := (l.dropWhile isPyWs).reverse) isPyWs
  have h2 := List.reverse_prefix.mpr h
  rwa [List.reverse_reverse] at h2

theorem stripList_infix_self (l : List Char) : stripList l <:+: l :=
  (stripList_prefix_dropWhile l).isInfix.trans (List.dropWhile_suffix isPyWs).isInfix

theorem stripList_length_le (l : List Char) : (stripList l).length ≤ l.length :=
  (stripList_infix_self l).length_le

theorem head?_dropWhile_not {α : Type} (p : α → Bool) :
    ∀ (l : List α) (h : α), (l.dropWhile p).head? = some h → p h = false
  | [], h => by simp
  | c :: t, h => by
      by_cases hc : p c
      · rw [List.dropWhile_cons_of_pos hc]
        exact head?_dropWhile_not p t h
      · rw [List.dropWhile_cons_of_neg hc]
        intro he
        cases he
        exact Bool.eq_false_iff.mpr hc

theorem head?_of_prefix {α : Type} {l m : List α} (hp : l <+: m) (hne : l ≠ []) :
    l.head? = m.head? := by
  rcases hp with ⟨r, rfl⟩
  cases l with
  | nil => exact absurd rfl hne
  | cons a t => rfl

theorem stripList_head_not_ws (l : List Char) (h : Char)
    (hh : (stripList l).head? = some h) : isPyWs h = false := by
  have hne : stripList l ≠ [] := by
    intro e; rw [e] at hh; cases hh
  have heq := head?_of_prefix (stripList_prefix_dropWhile l) hne
  exact head?_dropWhile_not isPyWs l h (heq ▸ hh)

theorem stripList_reverse_eq (l : List Char) :
    (stripList l).reverse = ((l.dropWhile isPyWs).reverse).dropWhile isPyWs := by
  simp [stripList]

theorem stripList_last_not_ws (l : List Char) (h : Char)
    (hh : (stripList l).getLast? = some h) : isPyWs h = false := by
  rw [← List.head?_reverse, stripList_reverse_eq] at hh
  exact head?_dropWhile_not isPyWs _ h hh

/-! ### Dropping empty pieces does not change contiguous-run contents -/

theorem filter_prefix_flatten :
    ∀ (l : List (List Char)) (run : List (List Char)),
      run <+: l.filter (fun s => !s.isEmpty) →
      ∃ run', run' <+: l ∧ run'.flatten = run.flatten
  | [], run => by
      intro h
      simp only [List.filter_nil] at h
      rcases List.prefix_nil.mp h with rfl
      exact ⟨[], List.nil_prefix, rfl⟩
  | x :: xs, run => by
      intro h
      by_cases hx : x.isEmpty
      · rw [List.filter_cons_of_neg (by simp [hx])] at h
        obtain ⟨run', h1, h2⟩ := filter_prefix_flatten xs run h
        refine ⟨x :: run', List.cons_prefix_cons.mpr ⟨rfl, h1⟩, ?_⟩
        have hxe : x = [] := List.isEmpty_iff.mp hx
        simp [hxe, h2]
      · rw [List.filter_cons_of_pos (by simp [hx])] at h
        rcases List.prefix_cons_iff.mp h with rfl | ⟨t, rfl, ht⟩
        · exact ⟨[], List.nil_prefix, rfl⟩
        · obtain ⟨run', h1, h2⟩ := filter_prefix_flatten xs t ht
          exact ⟨x :: run', List.cons_prefix_cons.mpr ⟨rfl, h1⟩, by simp [h2]⟩

theorem filter_infix_flatten :
    ∀ (l : List (List Char)) (run : List (List Char)),
      run <:+: l.filter (fun s => !s.isEmpty) →
      ∃ run', run' <:+: l ∧ run'.flatten = run.flatten
  | [], run => by
      intro h
      simp only [List.filter_nil] at h
      rcases List.infix_nil.mp h with rfl
      exact ⟨[], List.infix_refl [], rfl⟩
  | x :: xs, run => by
      intro h
      by_cases hx : x.isEmpty
      · rw [List.filter_cons_of_neg (by simp [hx])] at h
        obtain ⟨run', h1, h2⟩ := filter_infix_flatten xs run h
        exact ⟨run', List.infix_cons h1, h2⟩
      · rw [List.filter_cons_of_pos (by simp [hx])] at h
        rcases List.infix_cons_iff.mp h with hpre | hsuf
        · obtain ⟨run', h1, h2⟩ := filter_prefix_flatten (x :: xs) run
            (by rwa [List.filter_cons_of_pos (by simp [hx])])
          exact ⟨run', h1.isInfix, h2⟩
        · obtain ⟨run', h1, h2⟩ := filter_infix_flatten xs run hsuf
          exact ⟨run', List.infix_cons h1, h2⟩

/-! ### splitOnList: equivalence with the direct-style mirror, and
reconstruction of the text from the pieces -/

theorem splitOnSpec_ne_nil (sep : List Char) :
    ∀ (fuel : Nat) (l : List Char), splitOnSpec sep fuel l ≠ [] := by
  intro fuel l
  match fuel, l with
  | 0, l => simp [splitOnSpec]
  | _ + 1, [] => simp [splitOnSpec]
  | fuel + 1, c :: cs =>
      rw [splitOnSpec]
      by_cases h : sep.isPrefixOf (c :: cs)
      · simp [h]
      · simp only [if_neg h]
        cases hs : splitOnSpec sep fuel cs <;> simp

theorem splitOnAux_eq_spec (sep : List Char) :
    ∀ (fuel : Nat) (l accP : List Char) (accs : List (List Char)),
      splitOnAux sep fuel l accP accs =
        accs.reverse ++
          (match splitOnSpec sep fuel l with
            | [] => [accP.reverse]
            | p :: ps => (accP.reverse ++ p) :: ps) := by
  intro fuel
  induction fuel with
  | zero => intro l accP accs; simp [splitOnAux, splitOnSpec]
  | succ fuel ih =>
      intro l accP accs
      cases l with
      | nil => simp [splitOnAux, splitOnSpec]
      | cons c cs =>
          rw [splitOnAux, splitOnSpec]
          by_cases h : sep.isPrefixOf (c :: cs)
          · rw [if_pos h, if_pos h, ih]
            cases hs : splitOnSpec sep fuel ((c :: cs).drop sep.length) with
            | nil => exact absurd hs (splitOnSpec_ne_nil sep fuel _)
            | cons p ps => simp
          · rw [if_neg h, if_neg h, ih]
            cases hs : splitOnSpec sep fuel cs with
            | nil => exact absurd hs (splitOnSpec_ne_nil sep fuel cs)
            | cons p ps => simp

theorem lengthTR_eq_length (l : List Char) : l.lengthTR = l.length := by
  have h := List.length_add_eq_lengthTRAux l 0
  simpa [List.lengthTR] using h.symm

theorem splitOnList_eq_spec (sep l : List Char) :
    splitOnList sep l = splitOnSpec sep (l.length + 1) l := by
  rw [splitOnList, lengthTR_eq_length, splitOnAux_eq_spec]
  cases hs : splitOnSpec sep (l.length + 1) l with
  | nil => exact absurd hs (splitOnSpec_ne_nil sep _ l)
  | cons p ps => simp

theorem isPrefixOf_append_drop {sep l : List Char} (h : sep.isPrefixOf l) :
    sep ++ l.drop sep.length = l := by
  rcases List.isPrefixOf_iff_prefix.mp h with ⟨r, rfl⟩
  rw [List.drop_left]

theorem joinWithSep_splitOnSpec (sep : List Char) (hsep : sep ≠ []) :
    ∀ (fuel : Nat) (l : List Char), l.length < fuel →
      joinWithSep sep (splitOnSpec sep fuel l) = l := by
  intro fuel
  induction fuel with
  | zero => intro l hl; omega
  | succ fuel ih =>
      intro l hl
      cases l with
      | nil => simp [splitOnSpec, joinWithSep]
      | cons c cs =>
          rw [splitOnSpec]
          by_cases h : sep.isPrefixOf (c :: cs)
          · rw [if_pos h]
            have hdrop : ((c :: cs).drop sep.length).length < fuel := by
              have h1 : 1 ≤ sep.length := by
                cases sep with
                | nil => exact absurd rfl hsep
                | cons a t => simp
              simp only [List.length_drop, List.length_cons] at *
              omega
            rw [joinWithSep_cons_of_ne_nil sep [] (splitOnSpec_ne_nil sep fuel _),
              ih _ hdrop]
            simpa using isPrefixOf_append_drop h
          · rw [if_neg h]
            have hcs : cs.length < fuel := by
              simp only [List.length_cons] at hl; omega
            cases hs : splitOnSpec sep fuel cs with
            | nil => exact absurd hs (splitOnSpec_ne_nil sep fuel cs)
            | cons p ps =>
                rw [joinWithSep_cons_head]
                have := ih cs hcs
                rw [hs] at this
                rw [this]

theorem joinWithSep_splitOnList (sep l : List Char) (hsep : sep ≠ []) :
    joinWithSep sep (splitOnList sep l) = l := by
  rw [splitOnList_eq_spec]
  exact joinWithSep_splitOnSpec sep hsep (l.length + 1) l (by omega)

/-! ### splitTextWithRegex: every contiguous run of pieces concatenates to a
contiguous substring of the text -/

theorem flatten_map_singleton : ∀ text : List Char,
    (text.map (fun c => [c])).flatten = text
  | [] => rfl
  | c :: cs => by simp [flatten_map_singleton cs]

theorem flatten_keep_pieces (sep : List Char) :
    ∀ (ps : List (List Char)) (p : List Char),
      (p :: ps.map (fun q => sep ++ q)).flatten = joinWithSep sep (p :: ps)
  | [], p => by simp [joinWithSep]
  | q :: t, p => by
      have ih := flatten_keep_pieces sep t (sep ++ q)
      simp only [List.map_cons, List.flatten_cons] at ih ⊢
      rw [ih, joinWithSep_two_cons]
      cases t with
      | nil => simp [joinWithSep]
      | cons r u => rw [joinWithSep_two_cons, joinWithSep_two_cons]; simp

theorem splitTextWithRegex_run_infix (sep text : List Char)
    {run : List (List Char)} (h : run <:+: splitTextWithRegex sep text) :
    run.flatten <:+: text := by
  by_cases hsep : sep.isEmpty
  · rw [splitTextWithRegex, if_pos hsep] at h
    have := flatten_infix_of_infix h
    rwa [flatten_map_singleton] at this
  · rw [splitTextWithRegex, if_neg hsep] at h
    have hne : sep ≠ [] := by
      intro e; rw [e] at hsep; exact hsep rfl
    cases hl : splitOnList sep text with
    | nil =>
        rw [splitOnList_eq_spec] at hl
        exact absurd hl (splitOnSpec_ne_nil sep _ text)
    | cons p ps =>
        rw [hl] at h
        obtain ⟨run', h1, h2⟩ := filter_infix_flatten _ run h
        rw [← h2]
        have hrecon : (p :: ps.map (fun q => sep ++ q)).flatten = text := by
          rw [flatten_keep_pieces]
          rw [← hl]
          exact joinWithSep_splitOnList sep text hne
        calc run'.flatten <:+: (p :: ps.map (fun q => sep ++ q)).flatten :=
              flatten_infix_of_infix h1
          _ = text := hrecon

theorem splitTextWithRegex_mem_sub (sep text : List Char) {s : List Char}
    (h : s ∈ splitTextWithRegex sep text) : s <:+: text := by
  have h2 := splitTextWithRegex_run_infix sep text (singleton_infix_of_mem h)
  simpa using h2

theorem splitTextWithRegex_nil_mem_length {text : List Char} {s : List Char}
    (h : s ∈ splitTextWithRegex [] text) : s.length = 1 := by
  rw [splitTextWithRegex] at h
  simp only [List.isEmpty_nil, if_pos] at h
  rcases List.mem_map.mp h with ⟨c, _, rfl⟩
  rfl

/-! ### The merge loop: origin and length of the emitted chunks -/

theorem sumLen_cons (h : List Char) (t : List (List Char)) :
    sumLen (h :: t) = h.length + sumLen t := by
  simp [sumLen]

theorem joinDocs_mem {sep : List Char} {cd : List (List Char)} {c : List Char}
    (h : c ∈ (joinDocs sep cd).toList) :
    c = stripList (joinWithSep sep cd) ∧ c ≠ [] := by
  rw [joinDocs] at h
  by_cases he : (stripList (joinWithSep sep cd)).isEmpty
  · rw [if_pos he] at h; simp at h
  · rw [if_neg he] at h
    simp only [Option.toList_some, List.mem_singleton] at h
    subst h
    exact ⟨rfl, by simpa using he⟩

theorem popLoop_suffix (cs co : Nat) (sep : List Char) (dlen : Nat) :
    ∀ (cd : List (List Char)) (total : Nat),
      (popLoop cs co sep dlen cd total).1 <:+ cd
  | [], total => by simp [popLoop]
  | h :: t, total => by
      rw [popLoop]
      by_cases hc : total > co ∨ (total + dlen + sep.length > cs ∧ total > 0)
      · rw [if_pos hc]
        exact (popLoop_suffix cs co sep dlen t _).trans (List.suffix_cons h t)
      · rw [if_neg hc]

theorem popLoop_spec (cs co dlen : Nat) :
    ∀ (cd : List (List Char)) (total : Nat), total = sumLen cd →
      (popLoop cs co [] dlen cd total).2 = sumLen (popLoop cs co [] dlen cd total).1
      ∧ ((popLoop cs co [] dlen cd total).2 + dlen ≤ cs
          ∨ (popLoop cs co [] dlen cd total).2 = 0)
  | [], total => by
      intro ht
      simp only [sumLen, List.map_nil, List.sum_nil] at ht
      simp [popLoop, sumLen, ht]
  | h :: t, total => by
      intro ht
      rw [popLoop]
      simp only [List.length_nil, ite_self, Nat.add_zero]
      by_cases hc : total > co ∨ (total + dlen > cs ∧ total > 0)
      · rw [if_pos hc]
        refine popLoop_spec cs co dlen t (total - h.length) ?_
        rw [ht, sumLen_cons]
        omega
      · rw [if_neg hc]
        push_neg at hc
        refine ⟨ht, ?_⟩
        omega

theorem mergeGo_origin (cs co : Nat) :
    ∀ (rest cd docs : List (List Char)) (total : Nat) (c : List Char),
      c ∈ mergeGo cs co [] docs cd total rest →
      c ∈ docs ∨ ∃ run, run <:+: (cd ++ rest) ∧ c = stripList run.flatten ∧ c ≠ [] := by
  intro rest
  induction rest with
  | nil =>
      intro cd docs total c hc
      rw [mergeGo] at hc
      rcases List.mem_append.mp hc with h | h
      · exact Or.inl h
      · obtain ⟨h1, h2⟩ := joinDocs_mem h
        refine Or.inr ⟨cd, ⟨[], [], by simp⟩, ?_, h2⟩
        rw [h1, joinWithSep_nil_eq_flatten]
  | cons d rest ih =>
      intro cd docs total c hc
      rw [mergeGo.eq_def] at hc
      simp only [List.length_nil, ite_self, Nat.add_zero] at hc
      by_cases hcond : total + d.length > cs
      · rw [if_pos hcond] at hc
        cases cd with
        | nil =>
            rcases ih [d] docs (total + d.length) c hc with h | ⟨run, hr, he, hne⟩
            · exact Or.inl h
            · exact Or.inr ⟨run, by simpa using hr, he, hne⟩
        | cons h t =>
            rcases ih _ _ _ c hc with hmem | ⟨run, hr, he, hne⟩
            · rcases List.mem_append.mp hmem with h1 | h1
              · exact Or.inl h1
              · obtain ⟨he, hne⟩ := joinDocs_mem h1
                refine Or.inr ⟨h :: t, ⟨[], d :: rest, by simp⟩, ?_, hne⟩
                rw [he, joinWithSep_nil_eq_flatten]
            · refine Or.inr ⟨run, ?_, he, hne⟩
              obtain ⟨pre, hpre⟩ := popLoop_suffix cs co [] d.length (h :: t) total
              have h2 : run <:+:
                  (popLoop cs co [] d.length (h :: t) total).1 ++ (d :: rest) := by
                rwa [List.append_assoc, List.singleton_append] at hr
              refine h2.trans ⟨pre, [], ?_⟩
              rw [List.append_nil, ← List.append_assoc, hpre]
      · rw [if_neg hcond] at hc
        rcases ih _ _ _ c hc with h | ⟨run, hr, he, hne⟩
        · exact Or.inl h
        · exact Or.inr ⟨run, by rwa [List.append_assoc, List.singleton_append] at hr, he, hne⟩

theorem mergeGo_length (cs co : Nat) :
    ∀ (rest cd docs : List (List Char)) (total : Nat),
      total = sumLen cd → total ≤ cs →
      (∀ s ∈ rest, s.length < cs) → (∀ c ∈ docs, c.length ≤ cs) →
      ∀ c ∈ mergeGo cs co [] docs cd total rest, c.length ≤ cs := by
  intro rest
  induction rest with
  | nil =>
      intro cd docs total ht hle _ hdocs c hc
      rw [mergeGo] at hc
      rcases List.mem_append.mp hc with h | h
      · exact hdocs c h
      · obtain ⟨h1, _⟩ := joinDocs_mem h
        calc c.length ≤ (joinWithSep [] cd).length := h1 ▸ stripList_length_le _
          _ = sumLen cd := by rw [joinWithSep_nil_eq_flatten, flatten_length_eq_sumLen]
          _ ≤ cs := ht ▸ hle
  | cons d rest ih =>
      intro cd docs total ht hle hrest hdocs c hc
      have hd : d.length < cs := hrest d (List.mem_cons_self d rest)
      have hrest' : ∀ s ∈ rest, s.length < cs :=
        fun s hs => hrest s (List.mem_cons_of_mem d hs)
      rw [mergeGo.eq_def] at hc
      simp only [List.length_nil, ite_self, Nat.add_zero] at hc
      by_cases hcond : total + d.length > cs
      · rw [if_pos hcond] at hc
        cases cd with
        | nil =>
            have ht0 : total = 0 := by simpa [sumLen] using ht
            omega
        | cons h t =>
            obtain ⟨hp2, hp3⟩ := popLoop_spec cs co d.length (h :: t) total ht
            refine ih _ _ _ ?_ ?_ hrest' ?_ c hc
            · rw [sumLen_append, ← hp2]
              simp [sumLen]
            · rcases hp3 with h3 | h3
              · exact h3
              · rw [h3]; omega
            · intro x hx
              rcases List.mem_append.mp hx with h1 | h1
              · exact hdocs x h1
              · obtain ⟨he, _⟩ := joinDocs_mem h1
                calc x.length ≤ (joinWithSep [] (h :: t)).length :=
                      he ▸ stripList_length_le _
                  _ = sumLen (h :: t) := by
                      rw [joinWithSep_nil_eq_flatten, flatten_length_eq_sumLen]
                  _ ≤ cs := ht ▸ hle
      · rw [if_neg hcond] at hc
        refine ih _ _ _ ?_ ?_ hrest' hdocs c hc
        · rw [ht, sumLen_append]
          simp [sumLen]
        · omega

/-! ### The good-splits loop -/

theorem processSplits_origin (cs co : Nat) (hb : List Char → List (List Char)) :
    ∀ (splits good : List (List Char)) (c : List Char),
      c ∈ processSplits cs co hb splits good →
      (∃ run, run <:+: (good ++ splits) ∧ c = stripList run.flatten ∧ c ≠ [])
      ∨ (∃ s, s ∈ splits ∧ cs ≤ s.length ∧ c ∈ hb s) := by
  intro splits
  induction splits with
  | nil =>
      intro good c hc
      rw [processSplits] at hc
      by_cases hg : good.isEmpty
      · rw [if_pos hg] at hc; cases hc
      · rw [if_neg hg] at hc
        rcases mergeGo_origin cs co good [] [] 0 c hc with h | ⟨run, hr, he, hne⟩
        · cases h
        · exact Or.inl ⟨run, by simpa using hr, he, hne⟩
  | cons s rest ih =>
      intro good c hc
      rw [processSplits] at hc
      by_cases hs : s.length < cs
      · rw [if_pos hs] at hc
        rcases ih (good ++ [s]) c hc with ⟨run, hr, he, hne⟩ | ⟨x, hx1, hx2, hx3⟩
        · exact Or.inl ⟨run, by rwa [List.append_assoc, List.singleton_append] at hr,
            he, hne⟩
        · exact Or.inr ⟨x, List.mem_cons_of_mem s hx1, hx2, hx3⟩
      · rw [if_neg hs] at hc
        rcases List.mem_append.mp hc with hc1 | hc2
        · rcases List.mem_append.mp hc1 with hm | hm
          · by_cases hg : good.isEmpty
            · rw [if_pos hg] at hm; cases hm
            · rw [if_neg hg] at hm
              rcases mergeGo_origin cs co good [] [] 0 c hm with h | ⟨run, hr, he, hne⟩
              · cases h
              · refine Or.inl ⟨run, ?_, he, hne⟩
                have : run <:+: good := by simpa using hr
                exact this.trans ⟨[], s :: rest, by simp⟩
          · exact Or.inr ⟨s, List.mem_cons_self s rest, Nat.le_of_not_lt hs, hm⟩
        · rcases ih [] c hc2 with ⟨run, hr, he, hne⟩ | ⟨x, hx1, hx2, hx3⟩
          · refine Or.inl ⟨run, ?_, he, hne⟩
            have : run <:+: rest := by simpa using hr
            exact this.trans ⟨good ++ [s], [], by simp⟩
          · exact Or.inr ⟨x, List.mem_cons_of_mem s hx1, hx2, hx3⟩

theorem processSplits_length (cs co : Nat) (hb : List Char → List (List Char)) :
    ∀ (splits good : List (List Char)),
      (∀ s ∈ good, s.length < cs) →
      (∀ s ∈ splits, cs ≤ s.length → ∀ c ∈ hb s, c.length ≤ cs) →
      ∀ c ∈ processSplits cs co hb splits good, c.length ≤ cs := by
  intro splits
  induction splits with
  | nil =>
      intro good hgood _ c hc
      rw [processSplits] at hc
      by_cases hg : good.isEmpty
      · rw [if_pos hg] at hc; cases hc
      · rw [if_neg hg] at hc
        exact mergeGo_length cs co good [] [] 0 (by simp [sumLen]) (by omega)
          hgood (by simp) c hc
  | cons s rest ih =>
      intro good hgood hbb c hc
      rw [processSplits] at hc
      have hbb' : ∀ s' ∈ rest, cs ≤ s'.length → ∀ c ∈ hb s', c.length ≤ cs :=
        fun s' hs' => hbb s' (List.mem_cons_of_mem s hs')
      by_cases hs : s.length < cs
      · rw [if_pos hs] at hc
        refine ih (good ++ [s]) ?_ hbb' c hc
        intro x hx
        rcases List.mem_append.mp hx with h | h
        · exact hgood x h
        · rcases List.mem_singleton.mp h with rfl
          exact hs
      · rw [if_neg hs] at hc
        rcases List.mem_append.mp hc with hc1 | hc2
        · rcases List.mem_append.mp hc1 with hm | hm
          · by_cases hg : good.isEmpty
            · rw [if_pos hg] at hm; cases hm
            · rw [if_neg hg] at hm
              exact mergeGo_length cs co good [] [] 0 (by simp [sumLen]) (by omega)
                hgood (by simp) c hm
          · exact hbb s (List.mem_cons_self s rest) (Nat.le_of_not_lt hs) c hm
        · exact ih [] (by simp) hbb' c hc2

/-! ### The recursive splitter -/

theorem splitTextRec_cons (cs co : Nat) (s : List Char) (rest : List (List Char))
    (text : List Char) :
    splitTextRec cs co (s :: rest) text =
      if s.isEmpty then
        processSplits cs co (fun x => [x]) (splitTextWithRegex [] text) []
      else if occursIn s text then
        match rest with
        | [] => processSplits cs co (fun x => [x]) (splitTextWithRegex s text) []
        | r :: rs =>
            processSplits cs co (fun x => splitTextRec cs co (r :: rs) x)
              (splitTextWithRegex s text) []
      else
        match rest with
        | [] => processSplits cs co (fun x => [x]) (splitTextWithRegex s text) []
        | r :: rs => splitTextRec cs co (r :: rs) text := by
  rw [splitTextRec.eq_def]

theorem processSplits_infix (cs co : Nat) (hb : List Char → List (List Char))
    (sep text : List Char)
    (hhb : ∀ s, s ∈ splitTextWithRegex sep text → ∀ c ∈ hb s, c <:+: text) :
    ∀ c ∈ processSplits cs co hb (splitTextWithRegex sep text) [], c <:+: text := by
  intro c hc
  rcases processSplits_origin cs co hb _ [] c hc with ⟨run, hr, he, _⟩ | ⟨s, hs1, _, hs3⟩
  · have h2 : run.flatten <:+: text :=
      splitTextWithRegex_run_infix sep text (by simpa using hr)
    rw [he]
    exact (stripList_infix_self _).trans h2
  · exact hhb s hs1 c hs3

theorem splitTextRec_infix (cs co : Nat) :
    ∀ (seps : List (List Char)) (text c : List Char),
      c ∈ splitTextRec cs co seps text → c <:+: text := by
  intro seps
  induction seps with
  | nil =>
      intro text c hc
      rw [splitTextRec] at hc
      cases hc
  | cons s rest ih =>
      intro text c hc
      rw [splitTextRec_cons] at hc
      by_cases hse : s.isEmpty
      · rw [if_pos hse] at hc
        refine processSplits_infix cs co _ [] text ?_ c hc
        intro x hx c' hc'
        rcases List.mem_singleton.mp hc' with rfl
        exact splitTextWithRegex_mem_sub [] text hx
      · rw [if_neg hse] at hc
        by_cases hocc : occursIn s text
        · rw [if_pos hocc] at hc
          cases rest with
          | nil =>
              refine processSplits_infix cs co _ s text ?_ c hc
              intro x hx c' hc'
              rcases List.mem_singleton.mp hc' with rfl
              exact splitTextWithRegex_mem_sub s text hx
          | cons r rs =>
              refine processSplits_infix cs co _ s text ?_ c hc
              intro x hx c' hc'
              exact (ih x c' hc').trans (splitTextWithRegex_mem_sub s text hx)
        · rw [if_neg hocc] at hc
          cases rest with
          | nil =>
              refine processSplits_infix cs co _ s text ?_ c hc
              intro x hx c' hc'
              rcases List.mem_singleton.mp hc' with rfl
              exact splitTextWithRegex_mem_sub s text hx
          | cons r rs => exact ih text c hc

theorem splitTextRec_length (cs co : Nat) (hcs : 1 ≤ cs) :
    ∀ (seps : List (List Char)), [] ∈ seps →
      ∀ (text c : List Char), c ∈ splitTextRec cs co seps text → c.length ≤ cs := by
  intro seps
  induction seps with
  | nil => intro h; cases h
  | cons s rest ih =>
      intro hmem text c hc
      rw [splitTextRec_cons] at hc
      by_cases hse : s.isEmpty
      · rw [if_pos hse] at hc
        refine processSplits_length cs co _ _ [] (by simp) ?_ c hc
        intro x hx _ c' hc'
        rcases List.mem_singleton.mp hc' with rfl
        rw [splitTextWithRegex_nil_mem_length hx]
        exact hcs
      · have hs_ne : s ≠ [] := fun e => hse (by simp [e])
        have hrest : [] ∈ rest := by
          rcases List.mem_cons.mp hmem with h | h
          · exact absurd h.symm hs_ne
          · exact h
        rw [if_neg hse] at hc
        by_cases hocc : occursIn s text
        · rw [if_pos hocc] at hc
          cases rest with
          | nil => cases hrest
          | cons r rs =>
              refine processSplits_length cs co _ _ [] (by simp) ?_ c hc
              intro x _ _ c' hc'
              exact ih hrest x c' hc'
        · rw [if_neg hocc] at hc
          cases rest with
          | nil => cases hrest
          | cons r rs => exact ih hrest text c hc

theorem splitTextRec_stripped (cs co : Nat) (hcs : 2 ≤ cs) :
    ∀ (seps : List (List Char)), [] ∈ seps →
      ∀ (text c : List Char), c ∈ splitTextRec cs co seps text →
        (∃ m, c = stripList m) ∧ c ≠ [] := by
  intro seps
  induction seps with
  | nil => intro h; cases h
  | cons s rest ih =>
      intro hmem text c hc
      rw [splitTextRec_cons] at hc
      by_cases hse : s.isEmpty
      · rw [if_pos hse] at hc
        rcases processSplits_origin cs co _ _ [] c hc with ⟨run, _, he, hne⟩
          | ⟨x, hx1, hx2, _⟩
        · exact ⟨⟨run.flatten, he⟩, hne⟩
        · rw [splitTextWithRegex_nil_mem_length hx1] at hx2
          omega
      · have hs_ne : s ≠ [] := fun e => hse (by simp [e])
        have hrest : [] ∈ rest := by
          rcases List.mem_cons.mp hmem with h | h
          · exact absurd h.symm hs_ne
          · exact h
        rw [if_neg hse] at hc
        by_cases hocc : occursIn s text
        · rw [if_pos hocc] at hc
          cases rest with
          | nil => cases hrest
          | cons r rs =>
              rcases processSplits_origin cs co _ _ [] c hc with ⟨run, _, he, hne⟩
                | ⟨x, _, _, hx3⟩
              · exact ⟨⟨run.flatten, he⟩, hne⟩
              · exact ih hrest x c hx3
        · rw [if_neg hocc] at hc
          cases rest with
          | nil => cases hrest
          | cons r rs => exact ih hrest text c hc

/-! ### Decimal rendering: digits only, and injectivity -/

theorem digitChar_digit {d : Nat} (hd : d < 10) :
    digitChar d ∈ ['0', '1', '2', '3', '4', '5', '6', '7', '8', '9'] := by
  interval_cases d <;> decide

theorem digitChar_toNat {d : Nat} (hd : d < 10) : (digitChar d).toNat = 48 + d := by
  interval_cases d <;> decide

theorem natToDecAux_digits :
    ∀ (fuel n : Nat) (c : Char), c ∈ natToDecAux fuel n →
      c ∈ ['0', '1', '2', '3', '4', '5', '6', '7', '8', '9'] := by
  intro fuel
  induction fuel with
  | zero => intro n c hc; simp [natToDecAux] at hc
  | succ fuel ih =>
      intro n c hc
      rw [natToDecAux] at hc
      by_cases hn : n < 10
      · rw [if_pos hn] at hc
        rcases List.mem_singleton.mp hc with rfl
        exact digitChar_digit hn
      · rw [if_neg hn] at hc
        rcases List.mem_append.mp hc with h | h
        · exact ih _ c h
        · rcases List.mem_singleton.mp h with rfl
          exact digitChar_digit (Nat.mod_lt n (by omega))

theorem natToDec_digits {n : Nat} {c : Char} (hc : c ∈ natToDec n) :
    c ∈ ['0', '1', '2', '3', '4', '5', '6', '7', '8', '9'] :=
  natToDecAux_digits (n + 1) n c hc

theorem natToDec_not_mem {c : Char}
    (hc : c ∉ (['0', '1', '2', '3', '4', '5', '6', '7', '8', '9'] : List Char))
    (n : Nat) : c ∉ natToDec n :=
  fun h => hc (natToDec_digits h)

theorem decVal_append_digit (l : List Char) (c : Char) :
    decVal (l ++ [c]) = decVal l * 10 + (c.toNat - 48) := by
  simp [decVal, List.foldl_append]

theorem decVal_natToDecAux :
    ∀ (fuel n : Nat), n < fuel → decVal (natToDecAux fuel n) = n := by
  intro fuel
  induction fuel with
  | zero => intro n hn; omega
  | succ fuel ih =>
      intro n hn
      rw [natToDecAux]
      by_cases h10 : n < 10
      · rw [if_pos h10]
        simp [decVal, digitChar_toNat h10]
      · rw [if_neg h10]
        rw [decVal_append_digit, ih (n / 10) (by omega),
          digitChar_toNat (Nat.mod_lt n (by omega))]
        omega

theorem natToDec_inj {a b : Nat} (h : natToDec a = natToDec b) : a = b := by
  have ha := decVal_natToDecAux (a + 1) a (by omega)
  have hb := decVal_natToDecAux (b + 1) b (by omega)
  simp only [natToDec] at h
  rw [h] at ha
  omega

/-! ### Counting marker occurrences: a pattern with a unique 'P' -/

theorem marker_prefix_iff :
    ∀ (u x : List Char), 'P' ∉ u → 'P' ∉ x → ∀ (v y : List Char),
      ((u ++ 'P' :: v) <+: (x ++ 'P' :: y) ↔ (u = x ∧ v <+: y))
  | [], [], _, _, v, y => by simp [List.cons_prefix_cons]
  | [], c :: x', _, hx, v, y => by
      constructor
      · intro h
        rw [List.nil_append, List.cons_append] at h
        obtain ⟨h1, _⟩ := List.cons_prefix_cons.mp h
        exact absurd (h1 ▸ List.mem_cons_self c x') hx
      · rintro ⟨he, _⟩; cases he
  | a :: u', [], hu, _, v, y => by
      constructor
      · intro h
        rw [List.nil_append, List.cons_append] at h
        obtain ⟨h1, _⟩ := List.cons_prefix_cons.mp h
        exact absurd (h1 ▸ List.mem_cons_self a u') hu
      · rintro ⟨he, _⟩; cases he
  | a :: u', c :: x', hu, hx, v, y => by
      have hu' : 'P' ∉ u' := fun h => hu (List.mem_cons_of_mem a h)
      have hx' : 'P' ∉ x' := fun h => hx (List.mem_cons_of_mem c h)
      rw [List.cons_append, List.cons_append, List.cons_prefix_cons,
        marker_prefix_iff u' x' hu' hx' v y]
      constructor
      · rintro ⟨rfl, rfl, hv⟩; exact ⟨rfl, hv⟩
      · rintro ⟨he, hv⟩
        injection he with h1 h2
        exact ⟨h1, h2, hv⟩

theorem countOccur_eq_zero_of_not_mem {pat : List Char} {c : Char} (hc : c ∈ pat) :
    ∀ {t : List Char}, c ∉ t → countOccur pat t = 0 := by
  intro t
  induction t with
  | nil => intro _; rfl
  | cons a t' ih =>
      intro hnt
      rw [countOccur]
      have h1 : ¬ pat.isPrefixOf (a :: t') = true := by
        intro h
        exact hnt ((List.isPrefixOf_iff_prefix.mp h).subset hc)
      rw [if_neg h1, ih (fun h => hnt (List.mem_cons_of_mem a h))]

theorem countOccur_singleP :
    ∀ (x u v y : List Char), 'P' ∉ u → 'P' ∉ v → 'P' ∉ x → 'P' ∉ y →
      countOccur (u ++ 'P' :: v) (x ++ 'P' :: y) =
        if u <:+ x ∧ v <+: y then 1 else 0
  | [], u, v, y, hu, hv, hx, hy => by
      rw [List.nil_append, countOccur]
      have hz : countOccur (u ++ 'P' :: v) y = 0 :=
        countOccur_eq_zero_of_not_mem
          (List.mem_append_right u (List.mem_cons_self 'P' v)) hy
      rw [hz]
      have hiff : (u ++ 'P' :: v) <+: ('P' :: y) ↔ (u = [] ∧ v <+: y) := by
        have h := marker_prefix_iff u [] hu (by simp) v y
        rwa [List.nil_append] at h
      by_cases hp : (u ++ 'P' :: v).isPrefixOf ('P' :: y) = true
      · obtain ⟨h1, h2⟩ := hiff.mp (List.isPrefixOf_iff_prefix.mp hp)
        rw [if_pos hp, if_pos ⟨by simp [h1], h2⟩]
      · have hcond : ¬(u <:+ ([] : List Char) ∧ v <+: y) := by
          rintro ⟨hs, hv2⟩
          have hu0 : u = [] := List.suffix_nil.mp hs
          exact hp (List.isPrefixOf_iff_prefix.mpr (hiff.mpr ⟨hu0, hv2⟩))
        rw [if_neg hp, if_neg hcond]
  | c :: x', u, v, y, hu, hv, hx, hy => by
      have hx' : 'P' ∉ x' := fun h => hx (List.mem_cons_of_mem c h)
      rw [List.cons_append, countOccur,
        countOccur_singleP x' u v y hu hv hx' hy]
      have hiff : (u ++ 'P' :: v) <+: c :: (x' ++ 'P' :: y) ↔
          (u = c :: x' ∧ v <+: y) := by
        rw [← List.cons_append]
        exact marker_prefix_iff u (c :: x') hu hx v y
      by_cases hvy : v <+: y
      · by_cases hue : u = c :: x'
        · have hp : (u ++ 'P' :: v).isPrefixOf (c :: (x' ++ 'P' :: y)) = true :=
            List.isPrefixOf_iff_prefix.mpr (hiff.mpr ⟨hue, hvy⟩)
          have hx'f : ¬(u <:+ x' ∧ v <+: y) := by
            rintro ⟨hs, _⟩
            have hl := hs.length_le
            rw [hue] at hl
            simp only [List.length_cons] at hl
            omega
          rw [if_pos hp, if_neg hx'f, if_pos ⟨hue ▸ List.suffix_refl _, hvy⟩]
        · have hnp : ¬ (u ++ 'P' :: v).isPrefixOf (c :: (x' ++ 'P' :: y)) = true :=
            fun h => hue (hiff.mp (List.isPrefixOf_iff_prefix.mp h)).1
          rw [if_neg hnp, Nat.zero_add]
          by_cases hsx : u <:+ x'
          · rw [if_pos ⟨hsx, hvy⟩,
              if_pos ⟨List.suffix_cons_iff.mpr (Or.inr hsx), hvy⟩]
          · rw [if_neg (fun hh => hsx hh.1), if_neg ?_]
            rintro ⟨hsc, _⟩
            rcases List.suffix_cons_iff.mp hsc with h | h
            · exact hue h
            · exact hsx h
      · have h1 : ¬ (u ++ 'P' :: v).isPrefixOf (c :: (x' ++ 'P' :: y)) = true :=
          fun h => hvy (hiff.mp (List.isPrefixOf_iff_prefix.mp h)).2
        rw [if_neg h1, if_neg (fun hh => hvy hh.2), if_neg (fun hh => hvy hh.2)]

/-! ### Splitting occurrence counts at clean junctions: no occurrence can
straddle the junction when the last character before it, or the first
character after it, does not occur in the pattern at all. -/

theorem prefix_of_append_of_length_le {pat a b : List Char}
    (h : pat <+: a ++ b) (hl : pat.length ≤ a.length) : pat <+: a := by
  have h2 : pat = (a ++ b).take pat.length := List.prefix_iff_eq_take.mp h
  rw [List.take_append_of_le_length hl] at h2
  rw [h2]
  exact List.take_prefix _ a

theorem prefix_head_of_append {pat : List Char} (c : Char) (a' b : List Char)
    (h : pat <+: c :: (a' ++ b)) (hlen : (c :: a').length < pat.length) :
    ∃ p₂, pat = (c :: a') ++ p₂ ∧ p₂ ≠ [] ∧ p₂ <+: b := by
  have h2 : pat <+: (c :: a') ++ b := by rwa [List.cons_append]
  have hpre : (c :: a') <+: pat :=
    List.prefix_of_prefix_length_le (List.prefix_append (c :: a') b) h2 (by omega)
  obtain ⟨p₂, rfl⟩ := hpre
  refine ⟨p₂, rfl, ?_, ?_⟩
  · intro e
    rw [e] at hlen
    simp at hlen
  · rcases h2 with ⟨r, hr⟩
    rw [List.append_assoc] at hr
    exact ⟨r, List.append_cancel_left hr⟩

theorem countOccur_append_break_right (pat : List Char) :
    ∀ (a b : List Char), (∀ h, b.head? = some h → h ∉ pat) →
      countOccur pat (a ++ b) = countOccur pat a + countOccur pat b := by
  intro a
  induction a with
  | nil => intro b _; simp [countOccur]
  | cons c a' ih =>
      intro b hhead
      rw [List.cons_append, countOccur, countOccur, ih b hhead, ← Nat.add_assoc]
      congr 1
      by_cases hp : pat <+: (c :: a')
      · have h2 : pat <+: c :: (a' ++ b) := by
          rw [← List.cons_append]
          exact hp.trans (List.prefix_append (c :: a') b)
        rw [if_pos (List.isPrefixOf_iff_prefix.mpr h2),
          if_pos (List.isPrefixOf_iff_prefix.mpr hp)]
      · by_cases hp2 : pat <+: c :: (a' ++ b)
        · exfalso
          have hlen : (c :: a').length < pat.length := by
            by_contra hle
            exact hp (prefix_of_append_of_length_le
              (by rwa [← List.cons_append] at hp2) (by omega))
          obtain ⟨p₂, hpat2, hne, hpb⟩ := prefix_head_of_append c a' b hp2 hlen
          cases p₂ with
          | nil => exact hne rfl
          | cons g gs =>
              have hg : b.head? = some g := by
                rcases hpb with ⟨r, hr⟩
                rw [← hr]
                rfl
              exact hhead g hg (by
                rw [hpat2]
                exact List.mem_append_right _ (List.mem_cons_self g gs))
        · rw [if_neg (fun h => hp2 (List.isPrefixOf_iff_prefix.mp h)),
            if_neg (fun h => hp (List.isPrefixOf_iff_prefix.mp h))]

theorem countOccur_append_break_left (pat : List Char) :
    ∀ (a b : List Char), (∀ h, a.getLast? = some h → h ∉ pat) →
      countOccur pat (a ++ b) = countOccur pat a + countOccur pat b := by
  intro a
  induction a with
  | nil => intro b _; simp [countOccur]
  | cons c a' ih =>
      intro b hlast
      have hlast' : ∀ h, a'.getLast? = some h → h ∉ pat := by
        intro h hh
        cases a' with
        | nil => cases hh
        | cons z zs =>
            exact hlast h (by rw [List.getLast?_cons_cons]; exact hh)
      rw [List.cons_append, countOccur, countOccur, ih b hlast', ← Nat.add_assoc]
      congr 1
      by_cases hp : pat <+: (c :: a')
      · have h2 : pat <+: c :: (a' ++ b) := by
          rw [← List.cons_append]
          exact hp.trans (List.prefix_append (c :: a') b)
        rw [if_pos (List.isPrefixOf_iff_prefix.mpr h2),
          if_pos (List.isPrefixOf_iff_prefix.mpr hp)]
      · by_cases hp2 : pat <+: c :: (a' ++ b)
        · exfalso
          have hlen : (c :: a').length < pat.length := by
            by_contra hle
            exact hp (prefix_of_append_of_length_le
              (by rwa [← List.cons_append] at hp2) (by omega))
          have hpre : (c :: a') <+: pat :=
            List.prefix_of_prefix_length_le (List.prefix_append (c :: a') b)
              (by rwa [← List.cons_append] at hp2) (by omega)
          have hne : (c :: a') ≠ [] := by simp
          have hg : (c :: a').getLast? = some ((c :: a').getLast hne) :=
            List.getLast?_eq_getLast _ hne
          have hmem : (c :: a').getLast hne ∈ (c :: a') := List.getLast_mem hne
          exact hlast _ hg (hpre.subset hmem)
        · rw [if_neg (fun h => hp2 (List.isPrefixOf_iff_prefix.mp h)),
            if_neg (fun h => hp (List.isPrefixOf_iff_prefix.mp h))]

/-! ### The page markers -/

theorem markerCore_eq (k : Nat) :
    markerCore k =
      "--- ".data ++ 'P' :: ("age ".data ++ natToDec k ++ " ---".data) := rfl

theorem markerLine_eq (k : Nat) :
    markerLine k =
      ('\n' :: "--- ".data) ++
        'P' :: ("age ".data ++ natToDec k ++ (" ---".data ++ ['\n'])) := by
  simp [markerLine, markerCore, List.append_assoc]

theorem not_P_marker_u : 'P' ∉ "--- ".data := by decide

theorem not_P_marker_v (k : Nat) :
    'P' ∉ "age ".data ++ natToDec k ++ " ---".data := by
  intro h
  rcases List.mem_append.mp h with h1 | h1
  · rcases List.mem_append.mp h1 with h2 | h2
    · revert h2; decide
    · exact natToDec_not_mem (by decide) k h2
  · revert h1; decide

theorem not_P_marker_y (k : Nat) :
    'P' ∉ "age ".data ++ natToDec k ++ (" ---".data ++ ['\n']) := by
  intro h
  rcases List.mem_append.mp h with h1 | h1
  · rcases List.mem_append.mp h1 with h2 | h2
    · revert h2; decide
    · exact natToDec_not_mem (by decide) k h2
  · revert h1; decide

theorem newline_not_mem_markerCore (k : Nat) : '\n' ∉ markerCore k := by
  rw [markerCore]
  intro h
  rcases List.mem_append.mp h with h1 | h1
  · rcases List.mem_append.mp h1 with h2 | h2
    · revert h2; decide
    · exact natToDec_not_mem (by decide) k h2
  · revert h1; decide

theorem markerCore_ne_nil (k : Nat) : markerCore k ≠ [] := by
  rw [markerCore_eq]
  simp

theorem prefix_append_left_cancel {l a b : List Char} :
    (l ++ a) <+: (l ++ b) ↔ a <+: b := by
  constructor
  · rintro ⟨r, hr⟩
    rw [List.append_assoc] at hr
    exact ⟨r, List.append_cancel_left hr⟩
  · rintro ⟨r, rfl⟩
    exact ⟨r, by rw [List.append_assoc]⟩

theorem digit_string_eq_of_leading :
    ∀ (a b r1 r2 : List Char),
      (∀ c ∈ a, c ∈ ['0', '1', '2', '3', '4', '5', '6', '7', '8', '9']) →
      (∀ c ∈ b, c ∈ ['0', '1', '2', '3', '4', '5', '6', '7', '8', '9']) →
      (a ++ ' ' :: r1) <+: (b ++ ' ' :: r2) → a = b
  | [], [], _, _, _, _, _ => rfl
  | [], d :: b', r1, r2, _, hb, h => by
      exfalso
      rw [List.nil_append, List.cons_append] at h
      obtain ⟨h1, _⟩ := List.cons_prefix_cons.mp h
      have := hb d (List.mem_cons_self d b')
      rw [← h1] at this
      revert this; decide
  | d :: a', [], r1, r2, ha, _, h => by
      exfalso
      rw [List.nil_append, List.cons_append] at h
      obtain ⟨h1, _⟩ := List.cons_prefix_cons.mp h
      have := ha d (List.mem_cons_self d a')
      rw [h1] at this
      revert this; decide
  | d :: a', e :: b', r1, r2, ha, hb, h => by
      rw [List.cons_append, List.cons_append] at h
      obtain ⟨h1, h2⟩ := List.cons_prefix_cons.mp h
      have ha' : ∀ c ∈ a', c ∈ ['0', '1', '2', '3', '4', '5', '6', '7', '8', '9'] :=
        fun c hc => ha c (List.mem_cons_of_mem d hc)
      have hb' : ∀ c ∈ b', c ∈ ['0', '1', '2', '3', '4', '5', '6', '7', '8', '9'] :=
        fun c hc => hb c (List.mem_cons_of_mem e hc)
      rw [h1, digit_string_eq_of_leading a' b' r1 r2 ha' hb' h2]

theorem natToDec_space_prefix_iff (k j : Nat) (r2 : List Char) :
    ((natToDec k ++ " ---".data) <+: (natToDec j ++ (" ---".data ++ r2))) ↔ k = j := by
  constructor
  · intro h
    have hsh : (natToDec k ++ ' ' :: "---".data) <+:
        (natToDec j ++ ' ' :: ("---".data ++ r2)) := by
      simpa using h
    exact natToDec_inj (digit_string_eq_of_leading _ _ _ _
      (fun c hc => natToDec_digits hc) (fun c hc => natToDec_digits hc) hsh)
  · rintro rfl
    exact prefix_append_left_cancel.mpr ⟨r2, rfl⟩

theorem countOccur_markerCore_markerLine (k j : Nat) :
    countOccur (markerCore k) (markerLine j) = if k = j then 1 else 0 := by
  rw [markerCore_eq, markerLine_eq]
  rw [countOccur_singleP ('\n' :: "--- ".data) "--- ".data
    ("age ".data ++ natToDec k ++ " ---".data)
    ("age ".data ++ natToDec j ++ (" ---".data ++ ['\n']))
    not_P_marker_u (not_P_marker_v k) (by
      intro h
      rcases List.mem_cons.mp h with h1 | h1
      · cases h1
      · revert h1; decide) (not_P_marker_y j)]
  have hsuf : "--- ".data <:+ '\n' :: "--- ".data := ⟨['\n'], rfl⟩
  have hpre : (("age ".data ++ natToDec k ++ " ---".data) <+:
      ("age ".data ++ natToDec j ++ (" ---".data ++ ['\n']))) ↔ k = j := by
    simp only [List.append_assoc]
    rw [prefix_append_left_cancel]
    exact natToDec_space_prefix_iff k j ['\n']
  by_cases hk : k = j
  · rw [if_pos ⟨hsuf, hpre.mpr hk⟩, if_pos hk]
  · rw [if_neg (fun hh => hk (hpre.mp hh.2)), if_neg hk]

/-! ### The extractor's output -/

theorem markerLine_getLast (n : Nat) : (markerLine n).getLast? = some '\n' := by
  rw [markerLine, ← List.cons_append]
  exact List.getLast?_concat _

theorem extractFrom_head {pages : List (List Char)} (hne : pages ≠ []) (i : Nat) :
    (extractFrom i pages).head? = some '\n' := by
  cases pages with
  | nil => exact absurd rfl hne
  | cons p ps => rfl

theorem extractFrom_split :
    ∀ (m i : Nat) (pages : List (List Char)),
      extractFrom i pages =
        extractFrom i (pages.take m) ++ extractFrom (i + m) (pages.drop m)
  | 0, i, pages => by simp [extractFrom]
  | m + 1, i, [] => by simp [extractFrom]
  | m + 1, i, p :: ps => by
      rw [List.take_succ_cons, List.drop_succ_cons, extractFrom, extractFrom,
        extractFrom_split m (i + 1) ps]
      have he : i + (m + 1) = (i + 1) + m := by omega
      rw [he]
      simp [List.append_assoc]

theorem countOccur_nil (pat : List Char) : countOccur pat [] = 0 := rfl

theorem countOccur_extractFrom (k : Nat) :
    ∀ (pages : List (List Char)) (i : Nat),
      (∀ p ∈ pages, countOccur (markerCore k) p = 0) →
      countOccur (markerCore k) (extractFrom i pages) =
        if i + 1 ≤ k ∧ k ≤ i + pages.length then 1 else 0 := by
  intro pages
  induction pages with
  | nil =>
      intro i _
      rw [extractFrom, countOccur_nil, List.length_nil, if_neg (by omega)]
  | cons p ps ih =>
      intro i hclean
      have hside1 : ∀ h, (markerLine (i + 1)).getLast? = some h →
          h ∉ markerCore k := by
        intro h hh
        rw [markerLine_getLast] at hh
        rcases Option.some.inj hh with rfl
        exact newline_not_mem_markerCore k
      rw [extractFrom, List.append_assoc,
        countOccur_append_break_left (markerCore k) (markerLine (i + 1)) _ hside1,
        countOccur_markerCore_markerLine k (i + 1)]
      cases ps with
      | nil =>
          rw [extractFrom, List.append_nil,
            hclean p (List.mem_cons_self p []), List.length_cons, List.length_nil]
          split_ifs <;> omega
      | cons q qs =>
          have hside2 : ∀ h, (extractFrom (i + 1) (q :: qs)).head? = some h →
              h ∉ markerCore k := by
            intro h hh
            rw [extractFrom_head (by simp) (i + 1)] at hh
            rcases Option.some.inj hh with rfl
            exact newline_not_mem_markerCore k
          rw [countOccur_append_break_right (markerCore k) p _ hside2,
            hclean p (List.mem_cons_self p (q :: qs)),
            ih (i + 1) (fun p' hp' => hclean p' (List.mem_cons_of_mem p hp'))]
          simp only [List.length_cons]
          split_ifs <;> omega

theorem drop_get_cons :
    ∀ {k : Nat} {pages : List (List Char)} {p : List Char},
      pages.get? k = some p → pages.drop k = p :: pages.drop (k + 1)
  | 0, [], p => by intro h; cases h
  | 0, q :: qs, p => by
      intro h
      rcases Option.some.inj h with rfl
      rfl
  | k + 1, [], p => by intro h; cases h
  | k + 1, q :: qs, p => by
      intro h
      have hih := @drop_get_cons k qs p h
      rw [List.drop_succ_cons, hih, List.drop_succ_cons]

/-- C2 (amended): provided no page's content contains a page-marker string
for any page index in range, the extracted text contains the marker for each
page exactly once; for any two pages i < j the text splits into a part
holding exactly the one occurrence of marker i and none of marker j followed
by a part holding none of marker i and exactly the one occurrence of marker
j (markers occur in strictly increasing page order); and between the marker
lines of two consecutive pages lies exactly the first page's content. -/
theorem c2_extractor_page_markers (pages : List (List Char))
    (hclean : ∀ p ∈ pages, ∀ k, 1 ≤ k → k ≤ pages.length →
      countOccur (markerCore k) p = 0) :
    (∀ k, 1 ≤ k → k ≤ pages.length →
      countOccur (markerCore k) (extractText pages) = 1)
    ∧ (∀ i j, 1 ≤ i → i < j → j ≤ pages.length →
        ∃ A B, extractText pages = A ++ B
          ∧ countOccur (markerCore i) A = 1 ∧ countOccur (markerCore j) A = 0
          ∧ countOccur (markerCore i) B = 0 ∧ countOccur (markerCore j) B = 1)
    ∧ (∀ k p q, pages.get? k = some p → pages.get? (k + 1) = some q →
        ∃ A B, extractText pages =
          A ++ markerLine (k + 1) ++ p ++ markerLine (k + 2) ++ q ++ B) := by
  refine ⟨?_, ?_, ?_⟩
  · intro k h1 h2
    rw [extractText, countOccur_extractFrom k pages 0
      (fun p hp => hclean p hp k h1 h2), if_pos (by omega)]
  · intro i j h1 hij h2
    have hiN : i ≤ pages.length := by omega
    refine ⟨extractFrom 0 (pages.take i), extractFrom i (pages.drop i),
      ?_, ?_, ?_, ?_, ?_⟩
    · rw [extractText, extractFrom_split i 0 pages, Nat.zero_add]
    · rw [countOccur_extractFrom i (pages.take i) 0
        (fun p hp => hclean p (List.take_subset i pages hp) i h1 hiN)]
      rw [List.length_take, if_pos (by constructor <;> omega)]
    · rw [countOccur_extractFrom j (pages.take i) 0
        (fun p hp => hclean p (List.take_subset i pages hp) j (by omega) h2)]
      rw [List.length_take, if_neg (by omega)]
    · rw [countOccur_extractFrom i (pages.drop i) i
        (fun p hp => hclean p (List.drop_subset i pages hp) i h1 hiN)]
      rw [if_neg (by omega)]
    · rw [countOccur_extractFrom j (pages.drop i) i
        (fun p hp => hclean p (List.drop_subset i pages hp) j (by omega) h2)]
      rw [List.length_drop, if_pos (by constructor <;> omega)]
  · intro k p q hp hq
    have h1 := drop_get_cons hp
    have h2 := drop_get_cons hq
    refine ⟨extractFrom 0 (pages.take k), extractFrom (k + 2) (pages.drop (k + 2)), ?_⟩
    rw [extractText, extractFrom_split k 0 pages, Nat.zero_add, h1, extractFrom,
      h2, extractFrom]
    simp [List.append_assoc]

/-- C2 (witness): a concrete two-page document with marker-free contents
satisfies the hypothesis, and each of its two markers occurs exactly once. -/
theorem c2_extractor_page_markers_witness :
    (∀ p ∈ [("abc".data : List Char), "xyz".data], ∀ k, 1 ≤ k →
        k ≤ ([("abc".data : List Char), "xyz".data]).length →
        countOccur (markerCore k) p = 0)
    ∧ (∀ k, 1 ≤ k → k ≤ ([("abc".data : List Char), "xyz".data]).length →
        countOccur (markerCore k)
          (extractText [("abc".data : List Char), "xyz".data]) = 1) := by
  have hclean : ∀ p ∈ [("abc".data : List Char), "xyz".data], ∀ k, 1 ≤ k →
      k ≤ ([("abc".data : List Char), "xyz".data]).length →
      countOccur (markerCore k) p = 0 := by
    intro p hp k h1 h2
    simp only [List.length_cons, List.length_nil] at h2
    interval_cases k <;> fin_cases hp <;> decide
  exact ⟨hclean, (c2_extractor_page_markers _ hclean).1⟩

/-! ## Theorems -/

/-- C1 (counterexample): on the input " a", the configured chunker returns
the single chunk "a" (the splitter strips whitespace), so concatenating the
chunks with overlapping prefixes removed yields "a", not the original " a":
reconstruction is not lossless. -/
theorem c1_reconstruction_cex :
    chunkDocument " a".data = ["a".data]
    ∧ reconstructChunks (chunkDocument " a".data) ≠ " a".data := by decide

/-- C2 (counterexample): a parseable two-page PDF whose first page's text is
itself the string "--- Page 2 ---" makes the extractor's output contain the
marker "--- Page 2 ---" twice, not exactly once. -/
theorem c2_marker_duplication_cex :
    countOccur (markerCore 2) (extractText [markerCore 2, []]) = 2
    ∧ countOccur (markerCore 2) (extractText [markerCore 2, []]) ≠ 1 := by decide

/-- C3 (counterexample): with max length 3 and overlap 1 (overlap < max), the
input "ab\n\ncd" of length 6 > 3 is split into the chunks "ab" and "cd",
which share no overlap at all: consecutive chunks of a source text longer
than the max length need not overlap. -/
theorem c3_zero_overlap_cex :
    (1 : Nat) < 3
    ∧ splitText 3 1 "ab\n\ncd".data = ["ab".data, "cd".data]
    ∧ 3 < "ab\n\ncd".data.length
    ∧ maxOverlap "ab".data "cd".data = 0 := by decide

/-- C4 (counterexample): the Query Engine cell has no FileNotFoundError
branch, so invoking it with the faiss_index directory absent produces the
generic unexpected-failure report, not the distinct missing-input report
naming the path. -/
theorem c4_query_engine_missing_input_cex :
    (queryEngineRun true FileRead.absent []).report = Report.unexpected
    ∧ (queryEngineRun true FileRead.absent []).report
        ≠ Report.missingInput faissIndexPath := by
  exact ⟨rfl, by decide⟩

/-- C4 (amended): the Extractor, Chunker and Indexer produce the distinct
missing-input report naming their input path and write nothing when their
input file is absent; the Query Engine also writes nothing, but reports the
generic unexpected failure instead of a missing-input report. -/
theorem c4_missing_input_handling :
    extractorRun FileRead.absent = ⟨Report.missingInput pdfPath, []⟩
    ∧ chunkerRun FileRead.absent = ⟨Report.missingInput outputTextFile, []⟩
    ∧ (∀ embed modelOk, indexerRun embed modelOk FileRead.absent
        = ⟨Report.missingInput outputChunksFile, []⟩)
    ∧ (∀ modelOk answer, queryEngineRun modelOk FileRead.absent answer
        = ⟨Report.unexpected, []⟩) :=
  ⟨rfl, rfl, fun _ _ => rfl, fun _ _ => rfl⟩

/-- C5 (counterexample): for a retrieved chunk with no page-marker line at
all ("abc\nx to"), the attribution is the wrong label "(from Page to)" taken
from the last word of the second line, not the explicit not-found marker. -/
theorem c5_wrong_label_cex :
    countOccur "--- Page ".data "abc\nx to".data = 0
    ∧ pageInfo "abc\nx to".data = "(from Page to)".data
    ∧ pageInfo "abc\nx to".data ≠ notFoundMsg := by decide

/-- C5 (amended): page attribution never fails the query: it either uses the
last whitespace-separated token of the chunk's second line — whatever that
token is, marker or not — or, when the chunk has fewer than two lines or a
blank second line, degrades to the explicit "(Page number not found)"
marker. -/
theorem c5_page_attribution_characterization (chunk : List Char) :
    (∃ line tok, (splitlinesPy chunk).get? 1 = some line
        ∧ (splitWS line).getLast? = some tok
        ∧ pageInfo chunk = "(from Page ".data ++ (tok ++ ")".data))
    ∨ (pageInfo chunk = notFoundMsg
        ∧ ((splitlinesPy chunk).get? 1 = none
            ∨ ∃ line, (splitlinesPy chunk).get? 1 = some line
                ∧ splitWS line = [])) := by
  rcases hsp : splitlinesPy chunk with _ | ⟨l0, _ | ⟨line, rest⟩⟩
  · exact Or.inr ⟨by simp [pageInfo, hsp], Or.inl (by simp [hsp])⟩
  · exact Or.inr ⟨by simp [pageInfo, hsp], Or.inl (by simp [hsp])⟩
  · rcases h2 : (splitWS line).getLast? with _ | tok
    · refine Or.inr ⟨by simp [pageInfo, hsp, h2], Or.inr ⟨line, by simp [hsp], ?_⟩⟩
      cases hsw : splitWS line with
      | nil => rfl
      | cons a t => rw [hsw] at h2; simp [List.getLast?_eq_none_iff] at h2
    · exact Or.inl ⟨line, tok, by simp [hsp], h2, by simp [pageInfo, hsp, h2]⟩

/-- C6: chunking is deterministic — running the splitter twice on the same
text with the same max length and overlap yields the same chunk sequence. -/
theorem c6_chunker_deterministic (cs₁ co₁ cs₂ co₂ : Nat) (t₁ t₂ : List Char)
    (hcs : cs₁ = cs₂) (hco : co₁ = co₂) (ht : t₁ = t₂) :
    splitText cs₁ co₁ t₁ = splitText cs₂ co₂ t₂ := by
  rw [hcs, hco, ht]

/-- C6 (witness): the two runs agree on a concrete input. -/
theorem c6_chunker_deterministic_witness :
    (1000 : Nat) = 1000 ∧ (200 : Nat) = 200 ∧ " a".data = " a".data
    ∧ splitText 1000 200 " a".data = splitText 1000 200 " a".data :=
  ⟨rfl, rfl, rfl, c6_chunker_deterministic 1000 200 1000 200 _ _ rfl rfl rfl⟩

set_option maxRecDepth 100000 in
/-- C7: chunking the 2,400-character scenario input with max length 1000 and
overlap 200 produces exactly 3 chunks, and chunk 2 is the 999-character
substring starting at offset 800 = 1000 − 200 of the source text. -/
theorem c7_chunking_scenario :
    c7Input.length = 2400
    ∧ chunkDocument c7Input =
        [c7Input.take 999, (c7Input.drop 800).take 999, (c7Input.drop 1600).take 799]
    ∧ 800 = chunk_size - chunk_overlap := by
  refine ⟨?_, by decide, by decide⟩
  rw [c7Input, List.length_flatten, List.map_replicate, List.sum_replicate]
  decide

/-- C8: every stage writes only on success (all failure paths produce no
writes), and only to its own output path; the query stage never writes. -/
theorem c8_stage_atomicity :
    (∀ x, (isSuccess (extractorRun x).report = false → (extractorRun x).writes = [])
        ∧ ∀ w ∈ (extractorRun x).writes, w.1 = outputTextFile)
    ∧ (∀ x, (isSuccess (chunkerRun x).report = false → (chunkerRun x).writes = [])
        ∧ ∀ w ∈ (chunkerRun x).writes, w.1 = outputChunksFile)
    ∧ (∀ embed modelOk x,
        (isSuccess (indexerRun embed modelOk x).report = false →
          (indexerRun embed modelOk x).writes = [])
        ∧ ∀ w ∈ (indexerRun embed modelOk x).writes, w.1 = faissIndexPath)
    ∧ (∀ modelOk x answer, (queryEngineRun modelOk x answer).writes = []) := by
  refine ⟨fun x => ?_, fun x => ?_, fun embed modelOk x => ?_,
    fun modelOk x answer => ?_⟩
  · cases x <;> simp [extractorRun, isSuccess]
  · cases x <;> simp [chunkerRun, isSuccess]
  · cases x <;> [skip; skip; cases modelOk] <;> simp [indexerRun, isSuccess]
  · cases x <;> [skip; skip; cases modelOk] <;> simp [queryEngineRun]

/-- C8 (witness): at the concrete failing input (absent PDF) the extractor's
report is not a success and it writes nothing. -/
theorem c8_stage_atomicity_witness :
    isSuccess (extractorRun FileRead.absent).report = false
    ∧ (extractorRun FileRead.absent).writes = [] :=
  ⟨rfl, (c8_stage_atomicity.1 FileRead.absent).1 rfl⟩

/-- C1 (amended): exact reconstruction fails (the splitter strips whitespace
at chunk boundaries), but every chunk the configured chunker produces is a
contiguous substring of the original extracted text. -/
theorem c1_chunks_are_substrings (text : List Char) :
    ∀ c ∈ chunkDocument text, c <:+: text := fun c hc =>
  splitTextRec_infix chunk_size chunk_overlap defaultSeparators text c hc

/-- C1 (witness): the chunk "a" of the input " a" is one of its contiguous
substrings. -/
theorem c1_chunks_are_substrings_witness :
    "a".data ∈ chunkDocument " a".data ∧ "a".data <:+: " a".data :=
  ⟨by decide, c1_chunks_are_substrings " a".data "a".data (by decide)⟩

/-- C3 (amended): for all parameters with overlap < max length, every chunk's
length is at most the max length (with the default separator list the finest
separator splits to single characters, so no indivisible unit can force a
longer chunk); consecutive chunks may share up to the configured overlap but
the shared overlap can be zero even when the source text exceeds the max
length, and finer separators are tried only for pieces a coarser split leaves
at least max-length long. -/
theorem c3_chunk_length_bound (cs co : Nat) (hco : co < cs) (text : List Char) :
    ∀ c ∈ splitText cs co text, c.length ≤ cs := fun c hc =>
  splitTextRec_length cs co (by omega) defaultSeparators (by simp [defaultSeparators])
    text c hc

/-- C3 (witness): with max length 3 and overlap 1, the chunk "ab" of
"ab\n\ncd" has length at most 3. -/
theorem c3_chunk_length_bound_witness :
    (1 : Nat) < 3 ∧ "ab".data ∈ splitText 3 1 "ab\n\ncd".data
    ∧ ("ab".data).length ≤ 3 :=
  ⟨by decide, by decide, c3_chunk_length_bound 3 1 (by decide) "ab\n\ncd".data
    "ab".data (by decide)⟩

/-- C9: every chunk the configured chunker emits is whitespace-trimmed and
nonempty: no chunk begins or ends with a whitespace character. -/
theorem c9_chunks_trimmed (text : List Char) :
    ∀ c ∈ chunkDocument text,
      c ≠ [] ∧ (∀ h, c.head? = some h → isPyWs h = false)
      ∧ (∀ h, c.getLast? = some h → isPyWs h = false) := by
  intro c hc
  obtain ⟨⟨m, hm⟩, hne⟩ := splitTextRec_stripped chunk_size chunk_overlap
    (by decide) defaultSeparators (by simp [defaultSeparators]) text c hc
  refine ⟨hne, fun h hh => ?_, fun h hh => ?_⟩
  · exact stripList_head_not_ws m h (by rwa [hm] at hh)
  · exact stripList_last_not_ws m h (by rwa [hm] at hh)

/-- C9 (witness): the chunk "a" of the input " a" is nonempty and starts
and ends with a non-whitespace character. -/
theorem c9_chunks_trimmed_witness :
    "a".data ∈ chunkDocument " a".data
    ∧ ("a".data ≠ [] ∧ (∀ h, ("a".data).head? = some h → isPyWs h = false)
        ∧ (∀ h, ("a".data).getLast? = some h → isPyWs h = false)) :=
  ⟨by decide, c9_chunks_trimmed " a".data "a".data (by decide)⟩

/-- C10: on a PDF with zero pages the extractor succeeds, reports
" Success! Extracted 0 pages.", and writes the output file with empty
content, which contains no page marker for any page number. -/
theorem c10_extractor_zero_pages :
    extractorRun (FileRead.ok []) =
      ⟨Report.success " Success! Extracted 0 pages.".data,
       [(outputTextFile, Artifact.text [])]⟩
    ∧ extractText [] = []
    ∧ ∀ k, countOccur (markerCore k) (extractText []) = 0 :=
  ⟨rfl, rfl, fun _ => rfl⟩

end RagPipeline
